import Mathlib

/-!
Shallow embedding of `stanscofi/cute_ranking.py`, a library of
information-retrieval ranking metrics, together with proofs of the
specification's claims about it.

Binary-relevance metrics are modelled over `ℚ` (exact rational arithmetic,
executable); the gain-based metrics `dcg_at_k` / `ndcg_at_k`, which divide by
base-2 logarithms, are modelled over `ℝ`.  Functions that can raise a Python
exception return `Except String`; the error string is the message raised by
the source.  Python's float division is modelled by field division (in
particular `0 / 0 = 0` in the model, where floats produce a NaN).
-/

/-- Number of elements kept by the Python slice `l[:k]` on a list of length
`n`: `k` clamped to `[0, n]` for `k ≥ 0`, and `n + k` clamped for `k < 0`. -/
def pyCount (k : ℤ) (n : ℕ) : ℕ :=
  if 0 ≤ k then k.toNat else ((n : ℤ) + k).toNat

/-- The Python slice `l[:k]`. -/
def pyTake (k : ℤ) (l : List α) : List α :=
  l.take (pyCount k l.length)

/-- Number of relevant entries of a relevance vector: entries that are
nonzero (Python `np.sum(np.asarray(r) != 0)`). -/
def relCount (r : List ℚ) : ℕ :=
  (r.filter (fun x => decide (x ≠ 0))).length

/-- Arithmetic mean of a list of rationals (`np.mean`); the empty mean is
`0/0 = 0` in this model (a NaN for floats). -/
def listMean (l : List ℚ) : ℚ :=
  l.sum / (l.length : ℚ)

/-- Source `hit_rate_at_k(rs, k)`: validates `1 ≤ k ≤ len(rs[0])`, then
returns the fraction of vectors whose first `k` entries have positive sum. -/
def hit_rate_at_k (rs : List (List ℚ)) (k : ℤ) : Except String ℚ :=
  if k < 1 ∨ k > ((rs.headD []).length : ℤ) then
    Except.error "k value must be >=1 and < Max Rank"
  else
    Except.ok (((rs.filter (fun r => decide (0 < (pyTake k r).sum))).length : ℚ)
      / (rs.length : ℚ))

/-- Contribution of one vector to `mean_reciprocal_rank`: `1 / (i + 1)` for
`i` the 0-based index of the first nonzero entry, `0.0` if there is none
(source: `np.asarray(r).nonzero()[0]`, then `1.0 / (r[0] + 1)` if nonempty). -/
def reciprocal_rank (r : List ℚ) : ℚ :=
  match r.findIdx? (fun x => decide (x ≠ 0)) with
  | some i => 1 / ((i : ℚ) + 1)
  | none => 0

/-- Source `mean_reciprocal_rank(rs)`. -/
def mean_reciprocal_rank (rs : List (List ℚ)) : ℚ :=
  listMean (rs.map reciprocal_rank)

/-- Source `r_precision(r)`: `z` = list of indices of nonzero entries; if it
is empty return `0.0`, else return the mean of the binarized vector
restricted to positions `0 .. z[-1]`. -/
def r_precision (r : List ℚ) : ℚ :=
  let nz := (List.range r.length).filter (fun i => decide (r.getD i 0 ≠ 0))
  if nz = [] then 0
  else
    ((relCount (r.take (nz.getLastD 0 + 1))) : ℚ)
      / (((r.take (nz.getLastD 0 + 1)).length : ℚ))

/-- Source `precision_at_k(r, k=None)`: asserts `k is None or k >= 1`
(`AssertionError` on violation), slices to `r[:k]`, raises `ValueError` when
the slice is shorter than a given `k`, and returns the mean of the binarized
slice. -/
def precision_at_k (r : List ℚ) (k : Option ℤ) : Except String ℚ :=
  match k with
  | none => Except.ok ((relCount r : ℚ) / (r.length : ℚ))
  | some v =>
    if 1 ≤ v then
      if ((pyTake v r).length : ℤ) = v then
        Except.ok ((relCount (pyTake v r) : ℚ) / (((pyTake v r).length : ℚ)))
      else Except.error "Relevance score length < k"
    else Except.error "AssertionError"

/-- The window `r[:k]` considered by `recall_at_k`: the whole vector when
`k` is `None`, else the slice `r[:k]`. -/
def kWindow (k : Option ℤ) (r : List ℚ) : List ℚ :=
  match k with
  | none => r
  | some v => pyTake v r

/-- Source `recall_at_k(r, max_rel, k=None)`: asserts `k is None or k >= 1`,
counts relevant entries of `r[:k]`, raises `ValueError` when that count
exceeds `max_rel`, else returns `count / max_rel`. -/
def recall_at_k (r : List ℚ) (max_rel : ℤ) (k : Option ℤ) : Except String ℚ :=
  match k with
  | some v =>
    if 1 ≤ v then
      if (relCount (pyTake v r) : ℤ) > max_rel then
        Except.error "Number of relevant documents retrieved > max_rel"
      else Except.ok ((relCount (pyTake v r) : ℚ) / (max_rel : ℚ))
    else Except.error "AssertionError"
  | none =>
    if (relCount r : ℤ) > max_rel then
      Except.error "Number of relevant documents retrieved > max_rel"
    else Except.ok ((relCount r : ℚ) / (max_rel : ℚ))

/-- Sequential evaluation of a fallible function over a list, collecting the
results; the model of a Python list comprehension whose body can raise. -/
def collectExcept (f : ℕ → Except String ℚ) : List ℕ → Except String (List ℚ)
  | [] => Except.ok []
  | i :: is => do
    let v ← f i
    let vs ← collectExcept f is
    return v :: vs

/-- Source `average_precision(r)`: binarize the vector (nonzero entries
become `1`), call `precision_at_k` at `i + 1` for every index `i` holding a
nonzero entry, and return the mean of those values (`0.0` when there is no
relevant entry). -/
def average_precision (r : List ℚ) : Except String ℚ := do
  let rb : List ℚ := r.map (fun x => if x ≠ 0 then 1 else 0)
  let idxs := (List.range rb.length).filter (fun i => decide (rb.getD i 0 ≠ 0))
  let out ← collectExcept (fun i => precision_at_k rb (some ((i : ℤ) + 1))) idxs
  if out = [] then return 0 else return listMean out

theorem except_bind_ok (a : α) (f : α → Except String β) :
    (Except.ok a >>= f : Except String β) = f a := rfl

theorem except_bind_error (e : String) (f : α → Except String β) :
    (Except.error e >>= f : Except String β) = Except.error e := rfl

theorem except_pure (a : α) : (pure a : Except String α) = Except.ok a := rfl

example : hit_rate_at_k [[0,1,0],[0,0,0]] 2 = Except.ok (1/2) := by
  simp [hit_rate_at_k, pyTake, pyCount, List.filter_cons]
example : mean_reciprocal_rank [[0,0,1],[1,0,0]] = 2/3 := by
  simp [mean_reciprocal_rank, reciprocal_rank, listMean, List.findIdx?_cons]
  norm_num
example : r_precision [0,1,0,1,0] = 1/2 := by
  simp [r_precision, relCount, List.range_succ, List.filter_cons]
  norm_num
example : precision_at_k [1,0,1] (some 3) = Except.ok (2/3) := by
  simp [precision_at_k, pyTake, pyCount, relCount, List.filter_cons]
example : average_precision [1,0,1] = Except.ok (5/6) := by
  simp [average_precision, precision_at_k, pyTake, pyCount, relCount,
    listMean, List.range_succ, List.filter_cons, collectExcept,
    except_bind_ok, except_pure]
  norm_num
example : average_precision [0,0,0] = Except.ok 0 := by
  simp [average_precision, List.range_succ, List.filter_cons, collectExcept,
    except_bind_ok, except_pure]
example : recall_at_k [1,0,1] 4 none = Except.ok (1/2) := by
  simp [recall_at_k, relCount, List.filter_cons]
  norm_num
example : recall_at_k [1,0,1] 1 none =
    Except.error "Number of relevant documents retrieved > max_rel" := by
  simp [recall_at_k, relCount, List.filter_cons]
example : hit_rate_at_k [[-1]] 1 = Except.ok 0 := by
  simp [hit_rate_at_k, pyTake, pyCount, List.filter_cons]
example : precision_at_k [1,0] none = precision_at_k [1,0] (some 2) := by
  simp [precision_at_k, pyTake, pyCount, relCount, List.filter_cons]

/-- Vectorized sum `np.sum(l / np.log2(np.arange(s, s + len(l))))`: the
entry at 0-based index `j` is divided by `log2 (s + j)`. -/
noncomputable def weightedLogSum : List ℝ → ℕ → ℝ
  | [], _ => 0
  | a :: l, s => a / Real.logb 2 (s : ℝ) + weightedLogSum l (s + 1)

/-- Python `sorted(r, reverse=True)`: a descending (stable) sort. -/
noncomputable def sortDesc (r : List ℝ) : List ℝ :=
  List.insertionSort (fun a b => b ≤ a) r

/-- Source `dcg_at_k(r, k, method)`: truncate to `r[:k]`; on a non-empty
truncation, method `0` gives `r[0] + sum(r[1:] / log2(arange(2, size + 1)))`,
method `1` gives `sum(r / log2(arange(2, size + 2)))`, and any other method
raises `ValueError`; an empty truncation yields `0.0`. -/
noncomputable def dcg_at_k (r : List ℝ) (k : ℤ) (method : ℤ) : Except String ℝ :=
  if (pyTake k r).length ≠ 0 then
    if method = 0 then
      Except.ok ((pyTake k r).headD 0 + weightedLogSum (pyTake k r).tail 2)
    else if method = 1 then
      Except.ok (weightedLogSum (pyTake k r) 2)
    else Except.error "method must be 0 or 1."
  else Except.ok 0

/-- Source `ndcg_at_k(r, k, method)`: `dcg_max` is `dcg_at_k` of the
descending-sorted vector; if it is zero return `0.0`, else return
`dcg_at_k(r, k, method) / dcg_max`.  Errors raised by either `dcg_at_k`
call propagate. -/
noncomputable def ndcg_at_k (r : List ℝ) (k : ℤ) (method : ℤ) :
    Except String ℝ := do
  let dcg_max ← dcg_at_k (sortDesc r) k method
  if dcg_max = 0 then return 0
  else
    let d ← dcg_at_k r k method
    return d / dcg_max

/-- Per-position discount weight of `dcg_at_k` at 0-based index `j`, as the
spec describes it: method `0` leaves the first element at full weight and
divides the element at 2-based position `i = j + 1` by `log2 i`; method `1`
divides the element at 1-based position `i = j + 1` by `log2 (i + 1)`. -/
noncomputable def dcgWeight (method : ℤ) (j : ℕ) : ℝ :=
  if method = 0 then
    (if j = 0 then 1 else 1 / Real.logb 2 ((j : ℝ) + 1))
  else 1 / Real.logb 2 ((j : ℝ) + 2)

/-- Weighted sum of a list against a stream of per-position weights. -/
noncomputable def wsum : List ℝ → (ℕ → ℝ) → ℝ
  | [], _ => 0
  | a :: l, w => a * w 0 + wsum l (fun j => w (j + 1))

example : dcg_at_k [] 1 2 = Except.ok 0 := by
  simp [dcg_at_k, pyTake, pyCount]
example : ndcg_at_k [] 1 2 = Except.ok 0 := by
  simp [ndcg_at_k, dcg_at_k, sortDesc, pyTake, pyCount, except_bind_ok,
    except_pure]
example : dcg_at_k [1] 1 2 = Except.error "method must be 0 or 1." := by
  simp [dcg_at_k, pyTake, pyCount]
example : ndcg_at_k [1] 1 2 = Except.error "method must be 0 or 1." := by
  simp [ndcg_at_k, dcg_at_k, sortDesc, pyTake, pyCount, except_bind_ok,
    except_bind_error, except_pure]

theorem wsum_congr (l : List ℝ) :
    ∀ (w w' : ℕ → ℝ), (∀ j, w j = w' j) → wsum l w = wsum l w' := by
  induction l with
  | nil => intro w w' _; rfl
  | cons a t ih =>
    intro w w' h
    simp only [wsum, h 0]
    rw [ih (fun j => w (j + 1)) (fun j => w' (j + 1)) (fun j => h (j + 1))]

theorem wsum_nonneg (l : List ℝ) :
    ∀ (w : ℕ → ℝ), (∀ x ∈ l, 0 ≤ x) → (∀ j, 0 ≤ w j) → 0 ≤ wsum l w := by
  induction l with
  | nil => intro w _ _; exact le_refl 0
  | cons a t ih =>
    intro w hl hw
    have h1 : 0 ≤ a * w 0 :=
      mul_nonneg (hl a (List.mem_cons_self a t)) (hw 0)
    have h2 : 0 ≤ wsum t (fun j => w (j + 1)) :=
      ih _ (fun x hx => hl x (List.mem_cons_of_mem a hx)) (fun j => hw (j + 1))
    simpa [wsum] using add_nonneg h1 h2

theorem wsum_le_wsum_carry :
    ∀ (x : List ℝ) (y : List ℝ) (w : ℕ → ℝ) (c : ℝ),
      x.length = y.length →
      (∀ j, w (j + 1) ≤ w j) → (∀ j, 0 ≤ w j) →
      (∀ p, (x.take p).sum ≤ c + (y.take p).sum) →
      wsum x w ≤ c * w 0 + wsum y w := by
  intro x
  induction x with
  | nil =>
    intro y w c hlen _ hw hp
    have hy : y = [] := (List.eq_nil_of_length_eq_zero hlen.symm)
    have hc : 0 ≤ c := by simpa using hp 0
    simpa [hy, wsum] using mul_nonneg hc (hw 0)
  | cons a x' ih =>
    intro y w c hlen hmono hw hp
    cases y with
    | nil => simp at hlen
    | cons b y' =>
      have hlen' : x'.length = y'.length := by simpa using hlen
      have hc' : 0 ≤ c + b - a := by
        have := hp 1
        simp at this
        linarith
      have hp' : ∀ p, (x'.take p).sum ≤ (c + b - a) + (y'.take p).sum := by
        intro p
        have := hp (p + 1)
        simp at this
        linarith
      have hmono' : ∀ j, (fun j => w (j + 1)) (j + 1) ≤ (fun j => w (j + 1)) j :=
        fun j => hmono (j + 1)
      have hw' : ∀ j, 0 ≤ (fun j => w (j + 1)) j := fun j => hw (j + 1)
      have hih := ih y' (fun j => w (j + 1)) (c + b - a) hlen' hmono' hw' hp'
      have hstep : (c + b - a) * w 1 ≤ (c + b - a) * w 0 :=
        mul_le_mul_of_nonneg_left (hmono 0) hc'
      simp only [wsum]
      calc a * w 0 + wsum x' (fun j => w (j + 1))
          ≤ a * w 0 + ((c + b - a) * w 1 + wsum y' (fun j => w (j + 1))) := by
            linarith
        _ ≤ a * w 0 + ((c + b - a) * w 0 + wsum y' (fun j => w (j + 1))) := by
            linarith
        _ = c * w 0 + (b * w 0 + wsum y' (fun j => w (j + 1))) := by ring

theorem orderedInsert_take_sum (a : ℝ) :
    ∀ (m : List ℝ) (q : ℕ),
      a + (m.take q).sum ≤
        ((List.orderedInsert (fun x y => y ≤ x) a m).take (q + 1)).sum := by
  intro m
  induction m with
  | nil => intro q; simp [List.orderedInsert]
  | cons b t ih =>
    intro q
    by_cases h : b ≤ a
    · simp [List.orderedInsert, h]
    · simp only [List.orderedInsert, if_neg h]
      have hab : a ≤ b := le_of_not_le h
      cases q with
      | zero => simpa using hab
      | succ q' =>
        have := ih q'
        simp only [List.take_succ_cons, List.sum_cons]
        linarith

theorem take_sum_le_sortDesc (r : List ℝ) :
    ∀ p, (r.take p).sum ≤ ((sortDesc r).take p).sum := by
  induction r with
  | nil => intro p; simp [sortDesc]
  | cons a t ih =>
    intro p
    have hsd : sortDesc (a :: t) =
        List.orderedInsert (fun x y => y ≤ x) a (sortDesc t) := rfl
    cases p with
    | zero => simp
    | succ q =>
      calc ((a :: t).take (q + 1)).sum = a + (t.take q).sum := by simp
        _ ≤ a + ((sortDesc t).take q).sum := by
            have := ih q; linarith
        _ ≤ ((List.orderedInsert (fun x y => y ≤ x) a (sortDesc t)).take
              (q + 1)).sum := orderedInsert_take_sum a (sortDesc t) q
        _ = ((sortDesc (a :: t)).take (q + 1)).sum := by rw [hsd]

theorem length_sortDesc (r : List ℝ) : (sortDesc r).length = r.length :=
  List.length_insertionSort _ r

theorem mem_sortDesc {x : ℝ} {r : List ℝ} : x ∈ sortDesc r ↔ x ∈ r :=
  (List.perm_insertionSort _ r).mem_iff

theorem weightedLogSum_eq_wsum (l : List ℝ) :
    ∀ s : ℕ, weightedLogSum l s =
      wsum l (fun j => 1 / Real.logb 2 ((s : ℝ) + (j : ℝ))) := by
  induction l with
  | nil => intro s; rfl
  | cons a t ih =>
    intro s
    simp only [weightedLogSum, wsum, Nat.cast_zero, add_zero]
    rw [ih (s + 1)]
    rw [wsum_congr t (fun j => 1 / Real.logb 2 (((s + 1 : ℕ) : ℝ) + (j : ℝ)))
      (fun j => 1 / Real.logb 2 ((s : ℝ) + ((j + 1 : ℕ) : ℝ)))]
    · rw [div_eq_mul_one_div]
    · intro j
      push_cast
      ring_nf

theorem dcg_eq_wsum (r : List ℝ) (k m : ℤ) (hm : m = 0 ∨ m = 1) :
    dcg_at_k r k m = Except.ok (wsum (pyTake k r) (dcgWeight m)) := by
  cases hl : pyTake k r with
  | nil =>
    rcases hm with hm | hm <;> simp [dcg_at_k, hl, hm, wsum]
  | cons a t =>
    rcases hm with hm | hm
    · subst hm
      simp only [dcg_at_k, hl, List.length_cons, Nat.succ_ne_zero,
        ne_eq, not_false_iff, if_true, if_pos rfl, List.headD_cons,
        List.tail_cons]
      congr 1
      rw [weightedLogSum_eq_wsum t 2]
      simp only [wsum]
      have h0 : dcgWeight 0 0 = 1 := by simp [dcgWeight]
      rw [h0, mul_one]
      congr 1
      rw [wsum_congr t (fun j => 1 / Real.logb 2 (((2 : ℕ) : ℝ) + (j : ℝ)))
        (fun j => dcgWeight 0 (j + 1))]
      intro j
      simp only [dcgWeight, if_pos rfl, Nat.succ_ne_zero, ne_eq, if_neg,
        Nat.add_eq_zero, and_false, if_false]
      push_cast
      ring_nf
    · subst hm
      have h1 : (1 : ℤ) ≠ 0 := by norm_num
      simp only [dcg_at_k, hl, List.length_cons, Nat.succ_ne_zero,
        ne_eq, not_false_iff, if_true, if_neg h1, if_pos rfl]
      congr 1
      rw [weightedLogSum_eq_wsum (a :: t) 2]
      rw [wsum_congr (a :: t) (fun j => 1 / Real.logb 2 (((2 : ℕ) : ℝ) + (j : ℝ)))
        (fun j => dcgWeight 1 (j : ℕ))]
      intro j
      simp only [dcgWeight, if_neg h1]
      push_cast
      ring_nf

theorem logb_two_pos_of_two_le {x : ℝ} (hx : 2 ≤ x) : 0 < Real.logb 2 x :=
  Real.logb_pos (by norm_num) (by linarith)

theorem dcgWeight_nonneg (m : ℤ) (j : ℕ) : 0 ≤ dcgWeight m j := by
  unfold dcgWeight
  split_ifs with h1 h2
  · norm_num
  · have hj : 1 ≤ j := Nat.one_le_iff_ne_zero.mpr h2
    have hx : (2 : ℝ) ≤ (j : ℝ) + 1 := by
      have : (1 : ℝ) ≤ (j : ℝ) := by exact_mod_cast hj
      linarith
    exact le_of_lt (div_pos one_pos (logb_two_pos_of_two_le hx))
  · have hx : (2 : ℝ) ≤ (j : ℝ) + 2 := by
      linarith [Nat.cast_nonneg (α := ℝ) j]
    exact le_of_lt (div_pos one_pos (logb_two_pos_of_two_le hx))

theorem dcgWeight_zero_eq (j : ℕ) :
    dcgWeight 0 j = if j = 0 then 1 else 1 / Real.logb 2 ((j : ℝ) + 1) := by
  simp [dcgWeight]

theorem dcgWeight_succ_le (m : ℤ) (j : ℕ) : dcgWeight m (j + 1) ≤ dcgWeight m j := by
  by_cases hm : m = 0
  · subst hm
    rw [dcgWeight_zero_eq, dcgWeight_zero_eq]
    rw [if_neg (Nat.succ_ne_zero j)]
    cases j with
    | zero =>
      rw [if_pos rfl]
      rw [show ((1 : ℕ) : ℝ) + 1 = 2 by norm_num,
        Real.logb_self_eq_one (by norm_num : (1 : ℝ) < 2)]
      norm_num
    | succ j' =>
      rw [if_neg (Nat.succ_ne_zero j')]
      have hpos : 0 < Real.logb 2 (((j' + 1 : ℕ) : ℝ) + 1) := by
        apply logb_two_pos_of_two_le
        push_cast
        linarith [Nat.cast_nonneg (α := ℝ) j']
      apply one_div_le_one_div_of_le hpos
      apply Real.logb_le_logb_of_le (by norm_num : (1 : ℝ) < 2)
      · push_cast
        linarith [Nat.cast_nonneg (α := ℝ) j']
      · push_cast; linarith
  · have e : ∀ x : ℕ, dcgWeight m x = 1 / Real.logb 2 ((x : ℝ) + 2) := by
      intro x; simp [dcgWeight, hm]
    rw [e, e]
    have hpos : 0 < Real.logb 2 ((j : ℝ) + 2) := by
      apply logb_two_pos_of_two_le
      linarith [Nat.cast_nonneg (α := ℝ) j]
    apply one_div_le_one_div_of_le hpos
    apply Real.logb_le_logb_of_le (by norm_num : (1 : ℝ) < 2)
    · linarith [Nat.cast_nonneg (α := ℝ) j]
    · push_cast; linarith

theorem pyTake_eq_take (k : ℤ) (l : List α) :
    pyTake k l = l.take (pyCount k l.length) := rfl

theorem length_pyTake (k : ℤ) (l : List α) :
    (pyTake k l).length = min (pyCount k l.length) l.length := by
  simp [pyTake, List.length_take]

theorem mem_of_mem_pyTake {x : α} {k : ℤ} {l : List α} (h : x ∈ pyTake k l) :
    x ∈ l := List.take_subset _ _ h

theorem wsum_pyTake_le_sortDesc (r : List ℝ) (k m : ℤ) :
    wsum (pyTake k r) (dcgWeight m) ≤ wsum (pyTake k (sortDesc r)) (dcgWeight m) := by
  have hn : pyCount k (sortDesc r).length = pyCount k r.length := by
    rw [length_sortDesc]
  have hlen : (pyTake k r).length = (pyTake k (sortDesc r)).length := by
    rw [length_pyTake, length_pyTake, hn, length_sortDesc]
  have hp : ∀ p, ((pyTake k r).take p).sum ≤
      (0 : ℝ) + ((pyTake k (sortDesc r)).take p).sum := by
    intro p
    rw [pyTake_eq_take, pyTake_eq_take, hn, List.take_take, List.take_take,
      zero_add]
    exact take_sum_le_sortDesc r (min p (pyCount k r.length))
  have := wsum_le_wsum_carry (pyTake k r) (pyTake k (sortDesc r))
    (dcgWeight m) 0 hlen (dcgWeight_succ_le m) (dcgWeight_nonneg m) hp
  simpa using this

theorem wsum_pyTake_nonneg (r : List ℝ) (k m : ℤ) (hr : ∀ x ∈ r, 0 ≤ x) :
    0 ≤ wsum (pyTake k r) (dcgWeight m) :=
  wsum_nonneg _ _ (fun x hx => hr x (mem_of_mem_pyTake hx)) (dcgWeight_nonneg m)

theorem sortDesc_entries_nonneg (r : List ℝ) (hr : ∀ x ∈ r, 0 ≤ x) :
    ∀ x ∈ sortDesc r, 0 ≤ x := fun x hx => hr x (mem_sortDesc.mp hx)

theorem dcg_at_k_of_empty (r : List ℝ) (k m : ℤ) (h : pyTake k r = []) :
    dcg_at_k r k m = Except.ok 0 := by
  simp [dcg_at_k, h]

theorem dcg_at_k_of_invalid (r : List ℝ) (k m : ℤ) (hm0 : m ≠ 0) (hm1 : m ≠ 1)
    (hne : pyTake k r ≠ []) :
    dcg_at_k r k m = Except.error "method must be 0 or 1." := by
  have hlen : (pyTake k r).length ≠ 0 := by
    simpa [List.length_eq_zero] using hne
  simp [dcg_at_k, hlen, hm0, hm1]

theorem pyTake_sortDesc_eq_nil_iff (r : List ℝ) (k : ℤ) :
    pyTake k (sortDesc r) = [] ↔ pyTake k r = [] := by
  rw [← List.length_eq_zero, ← List.length_eq_zero, length_pyTake,
    length_pyTake, length_sortDesc]

/-- Claim C1, counterexample: `dcg_at_k` and `ndcg_at_k` do NOT raise for
every `r` and `k` when the method is invalid (e.g. `2`): whenever the slice
`r[:k]` is empty — here at `r = []`, `k = 1` and at `r = [1]`, `k = 0` —
both return `0.0` instead of raising. -/
theorem C1_counterexample :
    dcg_at_k [] 1 2 = Except.ok 0 ∧ ndcg_at_k [] 1 2 = Except.ok 0 ∧
    dcg_at_k [(1 : ℝ)] 0 2 = Except.ok 0 ∧
    ndcg_at_k [(1 : ℝ)] 0 2 = Except.ok 0 := by
  refine ⟨?_, ?_, ?_, ?_⟩
  · simp [dcg_at_k, pyTake, pyCount]
  · simp [ndcg_at_k, dcg_at_k, sortDesc, pyTake, pyCount, except_bind_ok,
      except_pure]
  · simp [dcg_at_k, pyTake, pyCount]
  · simp [ndcg_at_k, dcg_at_k, sortDesc, pyTake, pyCount, except_bind_ok,
      except_pure]

/-- Claim C1, amended: for any method other than `0` or `1`, `dcg_at_k` and
`ndcg_at_k` raise the invalid-argument error exactly when the slice `r[:k]`
is non-empty; when it is empty both return `0.0` without raising. -/
theorem C1_invalid_method (r : List ℝ) (k m : ℤ) (hm0 : m ≠ 0) (hm1 : m ≠ 1) :
    (pyTake k r ≠ [] →
      dcg_at_k r k m = Except.error "method must be 0 or 1." ∧
      ndcg_at_k r k m = Except.error "method must be 0 or 1.") ∧
    (pyTake k r = [] →
      dcg_at_k r k m = Except.ok 0 ∧ ndcg_at_k r k m = Except.ok 0) := by
  constructor
  · intro hne
    have hne' : pyTake k (sortDesc r) ≠ [] := by
      rw [ne_eq, pyTake_sortDesc_eq_nil_iff]; exact hne
    refine ⟨dcg_at_k_of_invalid r k m hm0 hm1 hne, ?_⟩
    unfold ndcg_at_k
    rw [dcg_at_k_of_invalid (sortDesc r) k m hm0 hm1 hne', except_bind_error]
  · intro hemp
    have hemp' : pyTake k (sortDesc r) = [] :=
      (pyTake_sortDesc_eq_nil_iff r k).mpr hemp
    refine ⟨dcg_at_k_of_empty r k m hemp, ?_⟩
    unfold ndcg_at_k
    rw [dcg_at_k_of_empty (sortDesc r) k m hemp', except_bind_ok, if_pos rfl]
    rfl

/-- Witness for C1_invalid_method at `r = [1]`, `k = 1`, `method = 2`. -/
theorem C1_invalid_method_witness :
    ((2 : ℤ) ≠ 0) ∧ ((2 : ℤ) ≠ 1) ∧
    dcg_at_k [(1 : ℝ)] 1 2 = Except.error "method must be 0 or 1." ∧
    ndcg_at_k [(1 : ℝ)] 1 2 = Except.error "method must be 0 or 1." :=
  ⟨by norm_num, by norm_num,
    (C1_invalid_method [1] 1 2 (by norm_num) (by norm_num)).1
      (by simp [pyTake, pyCount])⟩

/-- Claim C7: `dcg_at_k` restricts its input to the slice `r[:k]` and, for
method `0` or `1`, returns the sum of the sliced entries weighted by the
per-position discounts the spec describes (`dcgWeight`); an empty slice
yields `0.0`. -/
theorem C7_dcg_at_k_discounts (r : List ℝ) (k m : ℤ) (hm : m = 0 ∨ m = 1) :
    dcg_at_k r k m = Except.ok (wsum (pyTake k r) (dcgWeight m)) ∧
    (pyTake k r = [] → dcg_at_k r k m = Except.ok 0) :=
  ⟨dcg_eq_wsum r k m hm, fun h => dcg_at_k_of_empty r k m h⟩

/-- Witness for C7_dcg_at_k_discounts at `r = [1]`, `k = 1`, `method = 0`. -/
theorem C7_dcg_at_k_discounts_witness :
    ((0 : ℤ) = 0 ∨ (0 : ℤ) = 1) ∧
    dcg_at_k [(1 : ℝ)] 1 0 = Except.ok (wsum (pyTake 1 [(1 : ℝ)]) (dcgWeight 0)) :=
  ⟨Or.inl rfl, (C7_dcg_at_k_discounts [1] 1 0 (Or.inl rfl)).1⟩

/-- Claim C2: for a vector of non-negative gains, `k ≥ 1` and method `0` or
`1`, `ndcg_at_k` returns `0.0` when the DCG of the descending-sorted vector
is zero and `dcg_at_k r k m / ideal` otherwise, and the returned value lies
in `[0, 1]`. -/
theorem C2_ndcg_at_k_normalization (r : List ℝ) (k m : ℤ)
    (hr : ∀ x ∈ r, 0 ≤ x) (hk : 1 ≤ k) (hm : m = 0 ∨ m = 1) :
    ∃ ideal val : ℝ,
      dcg_at_k (sortDesc r) k m = Except.ok ideal ∧
      dcg_at_k r k m = Except.ok val ∧
      ndcg_at_k r k m = Except.ok (if ideal = 0 then 0 else val / ideal) ∧
      0 ≤ (if ideal = 0 then (0 : ℝ) else val / ideal) ∧
      (if ideal = 0 then (0 : ℝ) else val / ideal) ≤ 1 := by
  have hdi : dcg_at_k (sortDesc r) k m =
      Except.ok (wsum (pyTake k (sortDesc r)) (dcgWeight m)) :=
    dcg_eq_wsum _ k m hm
  have hdv : dcg_at_k r k m = Except.ok (wsum (pyTake k r) (dcgWeight m)) :=
    dcg_eq_wsum r k m hm
  have h0v : 0 ≤ wsum (pyTake k r) (dcgWeight m) := wsum_pyTake_nonneg r k m hr
  have h0i : 0 ≤ wsum (pyTake k (sortDesc r)) (dcgWeight m) :=
    wsum_pyTake_nonneg (sortDesc r) k m (sortDesc_entries_nonneg r hr)
  have hvi : wsum (pyTake k r) (dcgWeight m) ≤
      wsum (pyTake k (sortDesc r)) (dcgWeight m) := wsum_pyTake_le_sortDesc r k m
  refine ⟨wsum (pyTake k (sortDesc r)) (dcgWeight m),
    wsum (pyTake k r) (dcgWeight m), hdi, hdv, ?_, ?_, ?_⟩
  · unfold ndcg_at_k
    rw [hdi, except_bind_ok]
    by_cases hz : wsum (pyTake k (sortDesc r)) (dcgWeight m) = 0
    · rw [if_pos hz, if_pos hz]; rfl
    · rw [if_neg hz, if_neg hz, hdv, except_bind_ok]; rfl
  · by_cases hz : wsum (pyTake k (sortDesc r)) (dcgWeight m) = 0
    · rw [if_pos hz]
    · rw [if_neg hz]; exact div_nonneg h0v h0i
  · by_cases hz : wsum (pyTake k (sortDesc r)) (dcgWeight m) = 0
    · rw [if_pos hz]; norm_num
    · rw [if_neg hz]
      have hpos : 0 < wsum (pyTake k (sortDesc r)) (dcgWeight m) :=
        lt_of_le_of_ne h0i (Ne.symm hz)
      exact (div_le_one hpos).mpr hvi

/-- Witness for C2_ndcg_at_k_normalization at `r = [1]`, `k = 1`, `method = 0`. -/
theorem C2_ndcg_at_k_normalization_witness :
    (∀ x ∈ [(1 : ℝ)], 0 ≤ x) ∧ ((1 : ℤ) ≤ 1) ∧
    (∃ ideal val : ℝ,
      dcg_at_k (sortDesc [(1 : ℝ)]) 1 0 = Except.ok ideal ∧
      dcg_at_k [(1 : ℝ)] 1 0 = Except.ok val ∧
      ndcg_at_k [(1 : ℝ)] 1 0 = Except.ok (if ideal = 0 then 0 else val / ideal) ∧
      0 ≤ (if ideal = 0 then (0 : ℝ) else val / ideal) ∧
      (if ideal = 0 then (0 : ℝ) else val / ideal) ≤ 1) :=
  ⟨by norm_num, by norm_num,
    C2_ndcg_at_k_normalization [1] 1 0 (by norm_num) (by norm_num) (Or.inl rfl)⟩

theorem relCount_le_length (r : List ℚ) : relCount r ≤ r.length :=
  List.length_filter_le _ r

theorem natCast_div_bounds {c n : ℕ} (h : c ≤ n) :
    0 ≤ (c : ℚ) / (n : ℚ) ∧ (c : ℚ) / (n : ℚ) ≤ 1 := by
  constructor
  · exact div_nonneg (Nat.cast_nonneg c) (Nat.cast_nonneg n)
  · rcases Nat.eq_zero_or_pos n with hn | hn
    · subst hn
      simp
    · have hn' : (0 : ℚ) < (n : ℚ) := by exact_mod_cast hn
      exact (div_le_one hn').mpr (by exact_mod_cast h)

theorem intCast_div_bounds {c : ℕ} {m : ℤ} (h : (c : ℤ) ≤ m) :
    0 ≤ (c : ℚ) / (m : ℚ) ∧ (c : ℚ) / (m : ℚ) ≤ 1 := by
  have hm : 0 ≤ m := le_trans (Int.ofNat_nonneg c) h
  constructor
  · exact div_nonneg (Nat.cast_nonneg c) (by exact_mod_cast hm)
  · rcases eq_or_lt_of_le hm with hm0 | hm0
    · have hc : c = 0 := by omega
      subst hc
      simp
    · have hm' : (0 : ℚ) < (m : ℚ) := by exact_mod_cast hm0
      exact (div_le_one hm').mpr (by exact_mod_cast h)

theorem pyTake_toNat (v : ℤ) (r : List ℚ) (hv : 0 ≤ v) :
    pyTake v r = r.take v.toNat := by
  simp [pyTake, pyCount, hv]

/-- Claim C5: `precision_at_k` raises invalid-argument when `k` is given and
the vector is shorter than `k`; for valid `k` (or `k` omitted) it returns the
fraction of nonzero entries among the first `k` positions (the whole vector
when `k` is omitted), which lies in `[0, 1]`. -/
theorem C5_precision_at_k (r : List ℚ) (v : ℤ) :
    ((r.length : ℤ) < v →
      precision_at_k r (some v) = Except.error "Relevance score length < k") ∧
    (1 ≤ v → v ≤ (r.length : ℤ) →
      precision_at_k r (some v) =
        Except.ok ((relCount (pyTake v r) : ℚ) / (v : ℚ)) ∧
      0 ≤ (relCount (pyTake v r) : ℚ) / (v : ℚ) ∧
      (relCount (pyTake v r) : ℚ) / (v : ℚ) ≤ 1) ∧
    (precision_at_k r none = Except.ok ((relCount r : ℚ) / (r.length : ℚ)) ∧
      0 ≤ (relCount r : ℚ) / (r.length : ℚ) ∧
      (relCount r : ℚ) / (r.length : ℚ) ≤ 1) := by
  refine ⟨?_, ?_, ?_⟩
  · intro hlt
    have hv1 : 1 ≤ v := by omega
    have hv0 : 0 ≤ v := by omega
    have hlen : (pyTake v r).length = r.length := by
      rw [pyTake_toNat v r hv0, List.length_take]
      omega
    have hne : ((pyTake v r).length : ℤ) ≠ v := by
      rw [hlen]; omega
    simp only [precision_at_k, if_pos hv1, if_neg hne]
  · intro hv1 hvlen
    have hv0 : 0 ≤ v := by omega
    have hlen : (pyTake v r).length = v.toNat := by
      rw [pyTake_toNat v r hv0, List.length_take]
      omega
    have heq : ((pyTake v r).length : ℤ) = v := by rw [hlen]; omega
    have hcast : ((pyTake v r).length : ℚ) = (v : ℚ) := by
      exact_mod_cast congrArg (fun z : ℤ => (z : ℚ)) heq
    refine ⟨?_, ?_⟩
    · simp only [precision_at_k, if_pos hv1, if_pos heq, hcast]
    · rw [← hcast]
      exact natCast_div_bounds (relCount_le_length _)
  · refine ⟨rfl, natCast_div_bounds (relCount_le_length r)⟩

/-- Witness for C5_precision_at_k at `r = [1, 0]`, `k = 2`. -/
theorem C5_precision_at_k_witness :
    ((1 : ℤ) ≤ 2) ∧ ((2 : ℤ) ≤ (([(1 : ℚ), 0].length : ℕ) : ℤ)) ∧
    (precision_at_k [(1 : ℚ), 0] (some 2) =
        Except.ok ((relCount (pyTake 2 [(1 : ℚ), 0]) : ℚ) / ((2 : ℤ) : ℚ)) ∧
      0 ≤ (relCount (pyTake 2 [(1 : ℚ), 0]) : ℚ) / ((2 : ℤ) : ℚ) ∧
      (relCount (pyTake 2 [(1 : ℚ), 0]) : ℚ) / ((2 : ℤ) : ℚ) ≤ 1) :=
  ⟨by norm_num, by norm_num,
    (C5_precision_at_k [(1 : ℚ), 0] 2).2.1 (by norm_num) (by norm_num)⟩

/-- Claim C10: omitting the cutoff of `precision_at_k` is equivalent to
setting it to the vector's length, for any non-empty vector. -/
theorem C10_precision_at_k_default (r : List ℚ) (h : r ≠ []) :
    precision_at_k r none = precision_at_k r (some (r.length : ℤ)) := by
  have hlen : 0 < r.length := List.length_pos.mpr h
  have h1 : (1 : ℤ) ≤ (r.length : ℤ) := by exact_mod_cast hlen
  have hpt : pyTake ((r.length : ℕ) : ℤ) r = r := by
    rw [pyTake_toNat _ r (by positivity), Int.toNat_ofNat, List.take_length]
  simp [precision_at_k, hpt]
  rw [if_pos (Nat.one_le_iff_ne_zero.mpr (Nat.pos_iff_ne_zero.mp hlen))]

/-- Witness for C10_precision_at_k_default at `r = [1]`. -/
theorem C10_precision_at_k_default_witness :
    ([(1 : ℚ)] ≠ []) ∧
    precision_at_k [(1 : ℚ)] none =
      precision_at_k [(1 : ℚ)] (some (([(1 : ℚ)].length : ℕ) : ℤ)) :=
  ⟨by simp, C10_precision_at_k_default [(1 : ℚ)] (by simp)⟩

theorem recall_at_k_eq_body (r : List ℚ) (max_rel : ℤ) (k : Option ℤ)
    (hk : k = none ∨ ∃ v, k = some v ∧ 1 ≤ v) :
    recall_at_k r max_rel k =
      (if (relCount (kWindow k r) : ℤ) > max_rel then
        Except.error "Number of relevant documents retrieved > max_rel"
      else Except.ok ((relCount (kWindow k r) : ℚ) / (max_rel : ℚ))) := by
  rcases hk with hk | ⟨v, hk, hv⟩
  · subst hk; rfl
  · subst hk
    simp only [recall_at_k, kWindow, if_pos hv]

/-- Claim C3: `recall_at_k` raises the invalid-argument error exactly when
the count of relevant items in the considered window exceeds `max_rel`, and
otherwise returns `count / max_rel`, a value in `[0, 1]`. -/
theorem C3_recall_at_k (r : List ℚ) (max_rel : ℤ) (k : Option ℤ)
    (hk : k = none ∨ ∃ v, k = some v ∧ 1 ≤ v) :
    (recall_at_k r max_rel k =
        Except.error "Number of relevant documents retrieved > max_rel" ↔
      max_rel < (relCount (kWindow k r) : ℤ)) ∧
    ((relCount (kWindow k r) : ℤ) ≤ max_rel →
      recall_at_k r max_rel k =
        Except.ok ((relCount (kWindow k r) : ℚ) / (max_rel : ℚ)) ∧
      0 ≤ (relCount (kWindow k r) : ℚ) / (max_rel : ℚ) ∧
      (relCount (kWindow k r) : ℚ) / (max_rel : ℚ) ≤ 1) := by
  rw [recall_at_k_eq_body r max_rel k hk]
  constructor
  · by_cases hc : (relCount (kWindow k r) : ℤ) > max_rel
    · simp [hc]
    · simp [hc]
  · intro hle
    rw [if_neg (not_lt.mpr hle)]
    exact ⟨rfl, intCast_div_bounds hle⟩

/-- Witness for C3_recall_at_k at `r = [1, 0]`, `max_rel = 1`, `k = None`. -/
theorem C3_recall_at_k_witness :
    ((relCount (kWindow none [(1 : ℚ), 0]) : ℤ) ≤ 1) ∧
    (recall_at_k [(1 : ℚ), 0] 1 none =
        Except.ok ((relCount (kWindow none [(1 : ℚ), 0]) : ℚ) / ((1 : ℤ) : ℚ)) ∧
      0 ≤ (relCount (kWindow none [(1 : ℚ), 0]) : ℚ) / ((1 : ℤ) : ℚ) ∧
      (relCount (kWindow none [(1 : ℚ), 0]) : ℚ) / ((1 : ℤ) : ℚ) ≤ 1) :=
  ⟨by simp [kWindow, relCount, List.filter_cons],
    (C3_recall_at_k [(1 : ℚ), 0] 1 none (Or.inl rfl)).2
      (by simp [kWindow, relCount, List.filter_cons])⟩

/-- Claim C4, counterexample: `hit_rate_at_k` counts a vector as a hit only
when the sum of its first `k` entries is positive, not when it merely
contains a nonzero entry: at `rs = [[-1]]`, `k = 1` the single vector has a
nonzero entry in its first position, so the claimed value is `1 / 1 = 1`,
but the function returns `0`. -/
theorem C4_counterexample :
    hit_rate_at_k [[(-1 : ℚ)]] 1 = Except.ok 0 ∧
    (∃ x ∈ pyTake 1 [(-1 : ℚ)], x ≠ 0) ∧ ((0 : ℚ) ≠ 1 / 1) := by
  refine ⟨by simp [hit_rate_at_k, pyTake, pyCount, List.filter_cons], ?_, by norm_num⟩
  exact ⟨-1, by simp [pyTake, pyCount], by norm_num⟩

/-- Claim C4, amended: for a non-empty collection, `hit_rate_at_k` raises the
invalid-argument error exactly when `k < 1` or `k` exceeds the length of the
FIRST vector, and otherwise returns the fraction of vectors whose first `k`
entries have positive sum (for non-negative entries: contain at least one
nonzero entry), a value in `[0, 1]`. -/
theorem C4_hit_rate_at_k (rs : List (List ℚ)) (k : ℤ) (h : rs ≠ []) :
    (hit_rate_at_k rs k = Except.error "k value must be >=1 and < Max Rank" ↔
      (k < 1 ∨ ((rs.headD []).length : ℤ) < k)) ∧
    (1 ≤ k → k ≤ ((rs.headD []).length : ℤ) →
      hit_rate_at_k rs k =
        Except.ok
          (((rs.filter (fun r => decide (0 < (pyTake k r).sum))).length : ℚ) /
            (rs.length : ℚ)) ∧
      0 ≤ ((rs.filter (fun r => decide (0 < (pyTake k r).sum))).length : ℚ) /
            (rs.length : ℚ) ∧
      ((rs.filter (fun r => decide (0 < (pyTake k r).sum))).length : ℚ) /
            (rs.length : ℚ) ≤ 1) ∧
    hit_rate_at_k [[(0 : ℚ), 1, 0], [0, 0, 0]] 2 = Except.ok (1 / 2) := by
  refine ⟨?_, ?_, by simp [hit_rate_at_k, pyTake, pyCount, List.filter_cons]⟩
  · by_cases hc : k < 1 ∨ k > ((rs.headD []).length : ℤ)
    · simp only [hit_rate_at_k, if_pos hc]
      simpa using hc
    · simp only [hit_rate_at_k, if_neg hc]
      constructor
      · intro habs; exact absurd habs (by simp)
      · intro hcond; exact absurd (by omega : k < 1 ∨ k > ((rs.headD []).length : ℤ)) hc
  · intro h1 h2
    have hc : ¬(k < 1 ∨ k > ((rs.headD []).length : ℤ)) := by omega
    refine ⟨by simp only [hit_rate_at_k, if_neg hc], ?_⟩
    exact natCast_div_bounds (List.length_filter_le _ rs)

/-- Witness for C4_hit_rate_at_k at `rs = [[0,1,0],[0,0,0]]`, `k = 2`. -/
theorem C4_hit_rate_at_k_witness :
    ([[(0 : ℚ), 1, 0], [0, 0, 0]] ≠ ([] : List (List ℚ))) ∧ ((1 : ℤ) ≤ 2) ∧
    ((2 : ℤ) ≤ ((([[(0 : ℚ), 1, 0], [0, 0, 0]].headD []).length : ℕ) : ℤ)) ∧
    (hit_rate_at_k [[(0 : ℚ), 1, 0], [0, 0, 0]] 2 =
        Except.ok
          ((([[(0 : ℚ), 1, 0], [0, 0, 0]].filter
              (fun r => decide (0 < (pyTake 2 r).sum))).length : ℚ) /
            (([[(0 : ℚ), 1, 0], [0, 0, 0]].length : ℕ) : ℚ)) ∧
      0 ≤ (([[(0 : ℚ), 1, 0], [0, 0, 0]].filter
              (fun r => decide (0 < (pyTake 2 r).sum))).length : ℚ) /
            (([[(0 : ℚ), 1, 0], [0, 0, 0]].length : ℕ) : ℚ) ∧
      (([[(0 : ℚ), 1, 0], [0, 0, 0]].filter
              (fun r => decide (0 < (pyTake 2 r).sum))).length : ℚ) /
            (([[(0 : ℚ), 1, 0], [0, 0, 0]].length : ℕ) : ℚ) ≤ 1) :=
  ⟨by simp, by norm_num, by simp,
    (C4_hit_rate_at_k [[(0 : ℚ), 1, 0], [0, 0, 0]] 2 (by simp)).2.1
      (by norm_num) (by simp)⟩

/-- Reciprocal-rank contribution as the spec words it: `0.0` when the vector
has no relevant item (all entries zero), else `1 / rank` where the 1-based
rank of the first relevant item is one more than the number of leading
zeros. -/
def reciprocalRankSpec (r : List ℚ) : ℚ :=
  if (r.takeWhile (fun x => decide (x = 0))).length = r.length then 0
  else 1 / (((r.takeWhile (fun x => decide (x = 0))).length : ℚ) + 1)

theorem findIdx_none_of_all_zero :
    ∀ r : List ℚ, (∀ x ∈ r, x = 0) →
      r.findIdx? (fun x => decide (x ≠ 0)) = none ∧
      (r.takeWhile (fun x => decide (x = 0))).length = r.length := by
  intro r
  induction r with
  | nil => intro _; simp
  | cons a t ih =>
    intro h
    have ha : a = 0 := h a (List.mem_cons_self a t)
    have ht := ih (fun x hx => h x (List.mem_cons_of_mem a hx))
    constructor
    · rw [List.findIdx?_cons]
      rw [if_neg (by simp [ha])]
      rw [List.findIdx?_succ, ht.1]
      rfl
    · rw [List.takeWhile_cons]
      rw [if_pos (by simp [ha])]
      simp [ht.2]

theorem findIdx_some_of_exists_nonzero :
    ∀ r : List ℚ, (∃ x ∈ r, x ≠ 0) →
      ∃ i, r.findIdx? (fun x => decide (x ≠ 0)) = some i ∧
        (r.takeWhile (fun x => decide (x = 0))).length = i ∧ i < r.length := by
  intro r
  induction r with
  | nil => rintro ⟨x, hx, _⟩; exact absurd hx (List.not_mem_nil x)
  | cons a t ih =>
    intro h
    by_cases ha : a = 0
    · have ht : ∃ x ∈ t, x ≠ 0 := by
        rcases h with ⟨x, hx, hx0⟩
        rcases List.mem_cons.mp hx with rfl | hxt
        · exact absurd ha hx0
        · exact ⟨x, hxt, hx0⟩
      rcases ih ht with ⟨i, hfind, htw, hlt⟩
      refine ⟨i + 1, ?_, ?_, by simpa using Nat.succ_lt_succ hlt⟩
      · rw [List.findIdx?_cons, if_neg (by simp [ha]), List.findIdx?_succ,
          hfind]
        rfl
      · rw [List.takeWhile_cons, if_pos (by simp [ha])]
        simp [htw]
    · refine ⟨0, ?_, ?_, by simp⟩
      · rw [List.findIdx?_cons, if_pos (by simp [ha])]
      · rw [List.takeWhile_cons, if_neg (by simp [ha])]
        rfl

theorem reciprocal_rank_eq_spec (r : List ℚ) :
    reciprocal_rank r = reciprocalRankSpec r := by
  by_cases h : ∀ x ∈ r, x = 0
  · have h2 := findIdx_none_of_all_zero r h
    rw [reciprocal_rank, reciprocalRankSpec, h2.1, if_pos h2.2]
  · push_neg at h
    rcases findIdx_some_of_exists_nonzero r (by
      rcases h with ⟨x, hx, hx0⟩; exact ⟨x, hx, hx0⟩) with ⟨i, hfind, htw, hlt⟩
    rw [reciprocal_rank, reciprocalRankSpec, hfind, if_neg (by omega), htw]

/-- Claim C9: for a non-empty collection, `mean_reciprocal_rank` is the
arithmetic mean over the vectors of the reciprocal of the 1-based rank of
the first relevant item, contributing `0.0` when a vector has none; and the
spec's worked example evaluates to `2/3`. -/
theorem C9_mean_reciprocal_rank (rs : List (List ℚ)) (h : rs ≠ []) :
    mean_reciprocal_rank rs =
      (rs.map reciprocalRankSpec).sum / (rs.length : ℚ) ∧
    mean_reciprocal_rank [[(0 : ℚ), 0, 1], [1, 0, 0]] = 2 / 3 := by
  constructor
  · rw [mean_reciprocal_rank, listMean,
      funext reciprocal_rank_eq_spec, List.length_map]
  · simp [mean_reciprocal_rank, reciprocal_rank, listMean, List.findIdx?_cons]
    norm_num

/-- Witness for C9_mean_reciprocal_rank at the spec's worked example. -/
theorem C9_mean_reciprocal_rank_witness :
    ([[(0 : ℚ), 0, 1], [1, 0, 0]] ≠ ([] : List (List ℚ))) ∧
    mean_reciprocal_rank [[(0 : ℚ), 0, 1], [1, 0, 0]] =
      ([[(0 : ℚ), 0, 1], [1, 0, 0]].map reciprocalRankSpec).sum /
        (([[(0 : ℚ), 0, 1], [1, 0, 0]].length : ℕ) : ℚ) :=
  ⟨by simp,
    (C9_mean_reciprocal_rank [[(0 : ℚ), 0, 1], [1, 0, 0]] (by simp)).1⟩

theorem getLastD_mem_of_ne_nil :
    ∀ (l : List ℕ), l ≠ [] → ∀ d, l.getLastD d ∈ l := by
  intro l
  induction l with
  | nil => intro h; exact absurd rfl h
  | cons b t ih =>
    intro _ d
    cases t with
    | nil => simp
    | cons c t' =>
      rw [List.getLastD_cons]
      exact List.mem_cons_of_mem b (ih (by simp) b)

theorem le_getLastD_of_sorted :
    ∀ (l : List ℕ), l.Sorted (· ≤ ·) → ∀ z ∈ l, ∀ d, z ≤ l.getLastD d := by
  intro l
  induction l with
  | nil => intro _ z hz; exact absurd hz (List.not_mem_nil z)
  | cons b t ih =>
    intro hs z hz d
    rw [List.getLastD_cons]
    rcases List.mem_cons.mp hz with rfl | hzt
    · cases ht : t with
      | nil => simp [ht]
      | cons c t' =>
        have hmem : t.getLastD z ∈ t := by
          rw [ht]; exact getLastD_mem_of_ne_nil (c :: t') (by simp) z
        have h2 := (List.sorted_cons.mp hs).1 _ hmem
        rw [ht] at h2
        exact h2
    · exact ih (List.sorted_cons.mp hs).2 z hzt b

theorem getLastD_eq_max (l : List ℕ) (hs : l.Sorted (· ≤ ·)) (z : ℕ)
    (hz : z ∈ l) (hub : ∀ y ∈ l, y ≤ z) : l.getLastD 0 = z := by
  have hne : l ≠ [] := List.ne_nil_of_mem hz
  exact le_antisymm (hub _ (getLastD_mem_of_ne_nil l hne 0))
    (le_getLastD_of_sorted l hs z hz 0)

/-- Claim C8: `r_precision` returns `0.0` when the vector has no nonzero
entry; otherwise, with `z` the 0-based position of the last nonzero entry,
it returns the fraction of nonzero entries among positions `0 .. z`; and the
spec's worked example evaluates to `1/2`. -/
theorem C8_r_precision (r : List ℚ) (z : ℕ) :
    ((∀ x ∈ r, x = 0) → r_precision r = 0) ∧
    (z < r.length → r.getD z 0 ≠ 0 →
      (∀ j, z < j → j < r.length → r.getD j 0 = 0) →
      r_precision r = (relCount (r.take (z + 1)) : ℚ) / ((z : ℚ) + 1)) ∧
    r_precision [(0 : ℚ), 1, 0, 1, 0] = 1 / 2 := by
  refine ⟨?_, ?_, ?_⟩
  · intro h
    have hnil : (List.range r.length).filter
        (fun i => decide (r.getD i 0 ≠ 0)) = [] := by
      rw [List.filter_eq_nil_iff]
      intro i hi
      have hilt : i < r.length := List.mem_range.mp hi
      have h0 : r.getD i 0 = 0 := by
        rw [List.getD_eq_getElem r 0 hilt]
        exact h _ (List.getElem_mem hilt)
      rw [h0]
      simp
    simp only [r_precision]
    rw [if_pos hnil]
  · intro hzlen hznz hafter
    have hmem : z ∈ (List.range r.length).filter
        (fun i => decide (r.getD i 0 ≠ 0)) := by
      rw [List.mem_filter]
      exact ⟨List.mem_range.mpr hzlen, by simpa using hznz⟩
    have hub : ∀ y ∈ (List.range r.length).filter
        (fun i => decide (r.getD i 0 ≠ 0)), y ≤ z := by
      intro y hy
      rw [List.mem_filter] at hy
      have hylt : y < r.length := List.mem_range.mp hy.1
      by_contra hgt
      push_neg at hgt
      have h0 : r.getD y 0 = 0 := hafter y hgt hylt
      exact (of_decide_eq_true hy.2) h0
    have hsorted : ((List.range r.length).filter
        (fun i => decide (r.getD i 0 ≠ 0))).Sorted (· ≤ ·) :=
      (List.sorted_le_range r.length).filter _
    have hlast : ((List.range r.length).filter
        (fun i => decide (r.getD i 0 ≠ 0))).getLastD 0 = z :=
      getLastD_eq_max _ hsorted z hmem hub
    have hne : (List.range r.length).filter
        (fun i => decide (r.getD i 0 ≠ 0)) ≠ [] :=
      List.ne_nil_of_mem hmem
    have hlentake : (r.take (z + 1)).length = z + 1 := by
      rw [List.length_take]
      omega
    simp only [r_precision]
    rw [if_neg hne, hlast, hlentake]
    push_cast
    ring_nf
  · simp [r_precision, relCount, List.range_succ, List.filter_cons]
    norm_num

/-- Witness for C8_r_precision at `r = [0,1,0,1,0]`, `z = 3`. -/
theorem C8_r_precision_witness :
    (3 < ([(0 : ℚ), 1, 0, 1, 0].length : ℕ)) ∧
    ([(0 : ℚ), 1, 0, 1, 0].getD 3 0 ≠ 0) ∧
    r_precision [(0 : ℚ), 1, 0, 1, 0] =
      (relCount ([(0 : ℚ), 1, 0, 1, 0].take (3 + 1)) : ℚ) / (((3 : ℕ) : ℚ) + 1) :=
  ⟨by norm_num, by norm_num,
    (C8_r_precision [(0 : ℚ), 1, 0, 1, 0] 3).2.1 (by norm_num) (by norm_num)
      (by
        intro j h1 h2
        simp only [List.length_cons, List.length_nil] at h2
        interval_cases j
        norm_num)⟩

/-- The 1-based ranks at which the vector holds a relevant (nonzero) entry. -/
def apRelevantRanks (r : List ℚ) : List ℕ :=
  ((List.range r.length).filter (fun i => decide (r.getD i 0 ≠ 0))).map
    (fun i => i + 1)

/-- Fraction of relevant entries among the first `i` positions. -/
def precFrac (r : List ℚ) (i : ℕ) : ℚ :=
  (relCount (r.take i) : ℚ) / (i : ℚ)

/-- Average precision as the spec words it: the mean of the precision
fractions taken at exactly the relevant 1-based ranks, `0.0` when the
vector has no relevant entry. -/
def apSpec (r : List ℚ) : ℚ :=
  if apRelevantRanks r = [] then 0
  else ((apRelevantRanks r).map (precFrac r)).sum /
    ((apRelevantRanks r).length : ℚ)

theorem collectExcept_ok (f : ℕ → Except String ℚ) (g : ℕ → ℚ) :
    ∀ l : List ℕ, (∀ i ∈ l, f i = Except.ok (g i)) →
      collectExcept f l = Except.ok (l.map g) := by
  intro l
  induction l with
  | nil => intro _; rfl
  | cons i is ih =>
    intro h
    rw [collectExcept, h i (List.mem_cons_self i is), except_bind_ok,
      ih (fun j hj => h j (List.mem_cons_of_mem i hj)), except_bind_ok]
    rfl

theorem binarize_zero : (if (0 : ℚ) ≠ 0 then (1 : ℚ) else 0) = 0 := by norm_num

theorem binarize_ne_zero_iff (x : ℚ) :
    ((if x ≠ 0 then (1 : ℚ) else 0) ≠ 0) ↔ x ≠ 0 := by
  by_cases hx : x = 0 <;> simp [hx]

theorem relCount_map_binarize (l : List ℚ) :
    relCount (l.map (fun x => if x ≠ 0 then (1 : ℚ) else 0)) = relCount l := by
  unfold relCount
  rw [List.filter_map]
  rw [List.length_map]
  congr 1
  apply List.filter_congr
  intro x _
  simp only [Function.comp_apply]
  exact decide_eq_decide.mpr (binarize_ne_zero_iff x)

theorem getD_map_binarize (r : List ℚ) (i : ℕ) :
    (r.map (fun x => if x ≠ 0 then (1 : ℚ) else 0)).getD i 0 =
      (if r.getD i 0 ≠ 0 then (1 : ℚ) else 0) := by
  have := List.getD_map (l := r) (d := (0 : ℚ)) (n := i)
    (fun x => if x ≠ 0 then (1 : ℚ) else 0)
  rw [binarize_zero] at this
  exact this

theorem ap_idxs_eq (r : List ℚ) :
    (List.range (r.map (fun x => if x ≠ 0 then (1 : ℚ) else 0)).length).filter
      (fun i => decide ((r.map (fun x => if x ≠ 0 then (1 : ℚ) else 0)).getD i 0 ≠ 0)) =
    (List.range r.length).filter (fun i => decide (r.getD i 0 ≠ 0)) := by
  rw [List.length_map]
  apply List.filter_congr
  intro i _
  rw [getD_map_binarize]
  exact decide_eq_decide.mpr (binarize_ne_zero_iff _)

theorem precision_at_binarized (r : List ℚ) (i : ℕ) (hi : i < r.length) :
    precision_at_k (r.map (fun x => if x ≠ 0 then (1 : ℚ) else 0))
      (some ((i : ℤ) + 1)) = Except.ok (precFrac r (i + 1)) := by
  have h1 : (1 : ℤ) ≤ (i : ℤ) + 1 := by omega
  have htn : ((i : ℤ) + 1).toNat = i + 1 := by omega
  have hpt : pyTake ((i : ℤ) + 1)
      (r.map (fun x => if x ≠ 0 then (1 : ℚ) else 0)) =
      (r.map (fun x => if x ≠ 0 then (1 : ℚ) else 0)).take (i + 1) := by
    rw [pyTake_toNat _ _ (by omega), htn]
  have hlen : ((r.map (fun x => if x ≠ 0 then (1 : ℚ) else 0)).take
      (i + 1)).length = i + 1 := by
    rw [List.length_take, List.length_map]
    omega
  have heq : ((pyTake ((i : ℤ) + 1)
      (r.map (fun x => if x ≠ 0 then (1 : ℚ) else 0))).length : ℤ) =
      (i : ℤ) + 1 := by
    rw [hpt, hlen]; push_cast; ring
  simp only [precision_at_k, if_pos h1, if_pos heq, hpt, hlen]
  rw [← List.map_take, relCount_map_binarize]
  rw [precFrac]
  push_cast
  ring_nf
  simp

/-- Claim C6: `average_precision` returns the arithmetic mean of
`precision_at_k(r, i)` over exactly the 1-based positions `i` holding a
relevant (nonzero) entry, `0.0` when there is none; in particular
`average_precision [0,0,0] = 0` and `average_precision [1,0,1] = 5/6`. -/
theorem C6_average_precision :
    (∀ r : List ℚ, average_precision r = Except.ok (apSpec r)) ∧
    average_precision [(0 : ℚ), 0, 0] = Except.ok 0 ∧
    average_precision [(1 : ℚ), 0, 1] = Except.ok (5 / 6) := by
  refine ⟨?_, ?_, ?_⟩
  · intro r
    simp only [average_precision, ap_idxs_eq]
    rw [collectExcept_ok _ (fun i => precFrac r (i + 1)) _ (fun i hi => by
      have hilt : i < r.length :=
        List.mem_range.mp (List.mem_filter.mp hi).1
      exact precision_at_binarized r i hilt)]
    rw [except_bind_ok]
    by_cases hemp : (List.range r.length).filter
        (fun i => decide (r.getD i 0 ≠ 0)) = []
    · rw [hemp]
      simp only [List.map_nil, if_pos rfl]
      rw [apSpec, apRelevantRanks, hemp]
      rfl
    · have hmapne : ((List.range r.length).filter
          (fun i => decide (r.getD i 0 ≠ 0))).map
            (fun i => precFrac r (i + 1)) ≠ [] := by
        simpa using hemp
      have hrankne : apRelevantRanks r ≠ [] := by
        rw [apRelevantRanks]
        simpa using hemp
      rw [if_neg hmapne, apSpec, if_neg hrankne, apRelevantRanks,
        List.map_map, listMean, List.length_map, List.length_map]
      rfl
  · simp [average_precision, List.range_succ, List.filter_cons, collectExcept,
      except_bind_ok, except_pure]
  · simp [average_precision, precision_at_k, pyTake, pyCount, relCount,
      listMean, List.range_succ, List.filter_cons, collectExcept,
      except_bind_ok, except_pure]
    norm_num
